import Mathlib

/-!
Shallow embedding of the core of the `timewarrior-extensions` repository
(`dynamics_common.py`, `overtime_common.py`) and proofs about it.

Conventions of the embedding:
* Python `int` is modelled as `ℤ` (or `ℕ` where the value is a count),
  Python `float` multipliers as exact rationals `ℚ`.
* Python `str` is modelled as `String`; `str.split`, `str.strip`,
  `str.upper`, `str.replace` are re-implemented on the character list
  (`pySplit`, `pyStrip`, `pyUpper`, `pyReplace`) so that every definition
  evaluates inside the kernel.  For the inputs that occur in this program
  (non-empty separators, ASCII configuration keys) they agree with the
  Python primitives.
* Python `dict` objects holding project configurations are modelled as
  association lists (`JObj`); the truthiness test `if chosen_config:` on a
  dict is `¬ List.isEmpty`.
* Python `set` values derived from tag lists are modelled by the lists
  themselves together with set-like boolean predicates (`setEqB`, `ssubB`)
  and a distinct-element counter (`diffCard`), matching `set(...)`
  semantics.
-/

/-- Characters accepted by Python's default `str.strip` (string whitespace). -/
def pyIsSpace (c : Char) : Bool :=
  c == ' ' || c == '\t' || c == '\n' || c == '\r' || c == '\x0B' || c == '\x0C'

/-- Python `str.strip()`: drop leading and trailing whitespace. -/
def pyStrip (s : String) : String :=
  String.mk (((s.data.dropWhile pyIsSpace).reverse.dropWhile pyIsSpace).reverse)

/-- Worker for `pySplit`; `fuel` bounds the recursion by the input length. -/
def pySplitAux (sep : List Char) : Nat → List Char → List Char → List (List Char)
  | _, acc, [] => [acc.reverse]
  | 0, acc, l => [acc.reverse ++ l]
  | fuel + 1, acc, c :: rest =>
      if sep.isPrefixOf (c :: rest) then
        acc.reverse :: pySplitAux sep fuel [] ((c :: rest).drop sep.length)
      else
        pySplitAux sep fuel (c :: acc) rest

/-- Python `s.split(sep)` for a non-empty separator: cut at every
left-to-right, non-overlapping occurrence of `sep`.  (Python raises on an
empty separator; the program never passes one, and we return `[s]` there.) -/
def pySplit (s : String) (sep : String) : List String :=
  if sep.data.isEmpty then [s]
  else (pySplitAux sep.data s.data.length [] s.data).map (fun cs => String.mk cs)

/-- Python `s.replace(pat, rep)` for a non-empty pattern: replace every
left-to-right, non-overlapping occurrence. -/
def pyReplace (s pat rep : String) : String :=
  String.intercalate rep (pySplit s pat)

/-- Python `s.upper()` restricted to ASCII letters (the configuration keys
this program uppercases are all ASCII). -/
def pyUpper (s : String) : String :=
  String.mk (s.data.map Char.toUpper)

/-- The Python loop in `join_unique`: keep the first occurrence of each item. -/
def uniqueFirst (items : List String) : List String :=
  items.foldl (fun acc item => if acc.contains item then acc else acc ++ [item]) []

/-- `dynamics_common.join_unique`: deduplicate list items while keeping their
first-seen order, then join with the delimiter. -/
def join_unique (items : List String) (delimiter : String) : String :=
  String.intercalate delimiter (uniqueFirst items)

/-- `dynamics_common.merge_annotations`: join the two strings with the
delimiter, split again, deduplicate, rejoin. -/
def merge_annotations (existing addition delimiter : String) : String :=
  join_unique (pySplit (String.intercalate delimiter [existing, addition]) delimiter) delimiter

/-- A JSON value stored in a project-configuration object.  The program only
reads string-valued fields and the `timew_tags` string array. -/
inductive JVal where
  | str (s : String)
  | arr (xs : List String)
deriving DecidableEq

/-- A Python dict as it appears in the project-configuration list: an
association list of fields.  Dict truthiness is `¬ isEmpty`. -/
abbrev JObj := List (String × JVal)

/-- First-match association-list lookup, the `dict.get` of the model. -/
def lookupAssoc {α : Type} (l : List (String × α)) (k : String) : Option α :=
  (l.find? (fun p => p.1 == k)).map (fun p => p.2)

/-- `project_config.get("timew_tags", [])` (the configuration schema stores a
string array under this key). -/
def getTags (o : JObj) : List String :=
  match lookupAssoc o "timew_tags" with
  | some (JVal.arr xs) => xs
  | _ => []

/-- `set(a) ⊆ set(b)` on tag lists. -/
def setSubB (a b : List String) : Bool :=
  a.all (fun x => b.contains x)

/-- `set(a) == set(b)` on tag lists. -/
def setEqB (a b : List String) : Bool :=
  setSubB a b && setSubB b a

/-- `set(a) < set(b)` (strict subset) on tag lists. -/
def ssubB (a b : List String) : Bool :=
  setSubB a b && !(setSubB b a)

/-- `len(set(t) - set(c))`: the number of distinct tags of `t` not in `c`. -/
def diffCard (t c : List String) : Nat :=
  ((uniqueFirst t).filter (fun x => !(c.contains x))).length

/-- The synthesized fallback configuration of `resolve_project_config` when
no config matches. -/
def fallback_config (tags : List String) : JObj :=
  if tags.isEmpty then
    [("project", JVal.str "NO TAGS DEFINED TO THIS TIME ENTRY"),
     ("project_task", JVal.str "-"), ("role", JVal.str "-")]
  else
    [("project", JVal.str ("NO PROJECT FOUND FOR THESE TAGS: " ++ String.intercalate ", " tags)),
     ("project_task", JVal.str "-"), ("role", JVal.str "-")]

/-- The loop of `resolve_project_config` with its `chosen_config`
accumulator; at the end `if chosen_config:` is Python dict truthiness. -/
def resolve_loop (tags : List String) : List JObj → Option JObj → JObj
  | [], chosen =>
      match chosen with
      | some c => if c.isEmpty then fallback_config tags else c
      | none => fallback_config tags
  | pc :: rest, chosen =>
      let config_tags := getTags pc
      if setEqB config_tags tags then pc
      else if ssubB config_tags tags then
        match chosen with
        | none => resolve_loop tags rest (some pc)
        | some cur =>
            if diffCard tags config_tags < diffCard tags (getTags cur) then
              resolve_loop tags rest (some pc)
            else
              resolve_loop tags rest (some cur)
      else resolve_loop tags rest chosen

/-- `dynamics_common.resolve_project_config`: return the project
configuration matching the provided tags. -/
def resolve_project_config (tags : List String) (project_configs : List JObj) : JObj :=
  resolve_loop tags project_configs none

/-- Keep the closer of two candidates, the earlier one on ties. -/
def pickBest (tags : List String) (best cand : JObj) : JObj :=
  if diffCard tags (getTags cand) < diffCard tags (getTags best) then cand else best

/-- Resolution as the specification words it: an exact match returns
immediately; otherwise the first strict-subset candidate minimizing
`|T - config_tags|` wins; otherwise the fallback is synthesized. -/
def spec_resolve_project_config (tags : List String) (project_configs : List JObj) : JObj :=
  match project_configs.find? (fun c => setEqB (getTags c) tags) with
  | some c => c
  | none =>
      match project_configs.filter (fun c => ssubB (getTags c) tags) with
      | [] => fallback_config tags
      | c :: cs => cs.foldl (pickBest tags) c

/-- Candidate folding as the loop performs it, isolated for the proofs. -/
def candFold (tags : List String) : Option JObj → List JObj → Option JObj
  | chosen, [] => chosen
  | none, c :: cs => candFold tags (some c) cs
  | some cur, c :: cs => candFold tags (some (pickBest tags cur c)) cs

/-- The end-of-loop step of `resolve_project_config` (`if chosen_config:`). -/
def resolve_finish (tags : List String) : Option JObj → JObj
  | some c => if c.isEmpty then fallback_config tags else c
  | none => fallback_config tags

/-- `dynamics_common._ceil_div`: ceiling division of a rational by a positive
integer divisor, `0` on non-positive input.  Written with exact integer
arithmetic on the rational's numerator and denominator. -/
def _ceil_div (q : ℚ) (d : Nat) : Nat :=
  if 0 < q then (q.num.toNat + q.den * d - 1) / (q.den * d) else 0

/-- `dynamics_common.round_seconds_to_15m_blocks`: round seconds up to
15-minute blocks (900s). -/
def round_seconds_to_15m_blocks (total_seconds : ℚ) : Nat :=
  _ceil_div total_seconds 900 * 900

/-- `dynamics_common.billable_minutes_from_raw_seconds`: apply the
multiplier, round up once, convert to whole minutes. -/
def billable_minutes_from_raw_seconds (raw_seconds : ℤ) (multiplier : ℚ) : Nat :=
  round_seconds_to_15m_blocks ((raw_seconds : ℚ) * multiplier) / 60

/-- `dynamics_common.slack_seconds_from_raw_seconds`: rounding headroom of an
interval at multiplier 1. -/
def slack_seconds_from_raw_seconds (raw_seconds : ℤ) : ℤ :=
  (round_seconds_to_15m_blocks (raw_seconds : ℚ) : ℤ) - raw_seconds

/-- `dynamics_common.MAX_DESCRIPTION_LENGTH`. -/
def MAX_DESCRIPTION_LENGTH : Nat := 500

/-- `dynamics_common.DynamicsDraft`: the mutable working unit of the merge
and absorption engines.  `llm_settings` carries opaque per-record override
pairs that the core never inspects. -/
structure DynamicsDraft where
  date : String
  raw_seconds : ℤ
  multiplier : ℚ
  tags : List String
  project : String
  project_task : String
  project_display : String
  project_task_display : String
  role : String
  type : String
  description : String
  external_comment : String
  annotation_delimiter : String
  output_separator : String
  llm_settings : List (String × String) := []
  absorbable : Bool := false
  sequence : Nat := 0
deriving DecidableEq

/-- `dynamics_common.DynamicsRecord`: the immutable finalized billing line. -/
structure DynamicsRecord where
  date : String
  duration_minutes : Nat
  project : String
  project_task : String
  project_display : String
  project_task_display : String
  role : String
  type : String
  description : String
  external_comment : String
  annotation_delimiter : String
  output_separator : String
  llm_settings : List (String × String) := []
deriving DecidableEq

/-- `dynamics_common.finalize_draft`: project a draft to a record, computing
the billable minutes once from the final raw seconds. -/
def finalize_draft (draft : DynamicsDraft) : DynamicsRecord :=
  { date := draft.date
    duration_minutes := billable_minutes_from_raw_seconds draft.raw_seconds draft.multiplier
    project := draft.project
    project_task := draft.project_task
    project_display := draft.project_display
    project_task_display := draft.project_task_display
    role := draft.role
    type := draft.type
    description := draft.description
    external_comment := draft.external_comment
    annotation_delimiter := draft.annotation_delimiter
    output_separator := draft.output_separator
    llm_settings := draft.llm_settings }

/-- `dynamics_common.should_merge_base_draft`: the "same slot" test of the
merge engine. -/
def should_merge_base_draft (existing new_draft : DynamicsDraft)
    (merge_on_display_values include_format_in_merge : Bool) : Bool :=
  let project_value := if merge_on_display_values then existing.project_display else existing.project
  let project_task_value :=
    if merge_on_display_values then existing.project_task_display else existing.project_task
  let new_project_value :=
    if merge_on_display_values then new_draft.project_display else new_draft.project
  let new_project_task_value :=
    if merge_on_display_values then new_draft.project_task_display else new_draft.project_task
  if existing.date != new_draft.date
      || project_value != new_project_value
      || project_task_value != new_project_task_value
      || existing.role != new_draft.role
      || existing.type != new_draft.type
      || existing.multiplier != new_draft.multiplier
      || existing.absorbable != new_draft.absorbable then
    false
  else if include_format_in_merge then
    existing.annotation_delimiter == new_draft.annotation_delimiter
      && existing.output_separator == new_draft.output_separator
  else
    true

/-- `dynamics_common.merge_drafts`: walk the accumulated list; at the first
eligible slot apply the first of the three merge rules that matches
(identical description / merge-on-equal-tags / same title); a slot where no
rule matches is skipped; append when no slot absorbs the new draft. -/
def merge_drafts (drafts : List DynamicsDraft) (new_draft : DynamicsDraft)
    (merge_on_equal_tags merge_on_display_values include_format_in_merge : Bool) :
    List DynamicsDraft :=
  match drafts with
  | [] => [new_draft]
  | existing :: rest =>
      if should_merge_base_draft existing new_draft merge_on_display_values include_format_in_merge then
        let delimiter := existing.annotation_delimiter
        if existing.description == new_draft.description then
          { existing with raw_seconds := existing.raw_seconds + new_draft.raw_seconds } :: rest
        else if merge_on_equal_tags
            && existing.description.length + new_draft.description.length ≤ MAX_DESCRIPTION_LENGTH then
          { existing with
              raw_seconds := existing.raw_seconds + new_draft.raw_seconds
              description := merge_annotations existing.description new_draft.description delimiter }
            :: rest
        else
          let existing_title := (pySplit existing.description delimiter).headD ""
          let new_title := (pySplit new_draft.description delimiter).headD ""
          if existing_title == new_title
              && existing.description.length + new_draft.description.length ≤ MAX_DESCRIPTION_LENGTH then
            let note_items_without_title :=
              String.intercalate delimiter ((pySplit new_draft.description delimiter).drop 1)
            { existing with
                raw_seconds := existing.raw_seconds + new_draft.raw_seconds
                description :=
                  merge_annotations existing.description note_items_without_title delimiter }
              :: rest
          else
            existing :: merge_drafts rest new_draft merge_on_equal_tags merge_on_display_values
              include_format_in_merge
      else
        existing :: merge_drafts rest new_draft merge_on_equal_tags merge_on_display_values
          include_format_in_merge

/-- Total raw seconds of a draft list. -/
def sumRaw (drafts : List DynamicsDraft) : ℤ :=
  (drafts.map (fun d => d.raw_seconds)).sum

/-- `dynamics_common.AbsorptionDayReport`. -/
structure AbsorptionDayReport where
  date : String
  slack_seconds : ℤ
  admin_raw_seconds : ℤ
  absorbed_seconds : ℤ
  leftover_raw_seconds : ℤ
  leftover_exported_minutes : Nat
deriving DecidableEq

/-- The test `item.absorbable and absorb_tag in item.tags` of
`apply_absorption`. -/
def isAdminDraft (absorb_tag : String) (d : DynamicsDraft) : Bool :=
  d.absorbable && d.tags.contains absorb_tag

/-- The redistribution walk of `apply_absorption` over one day's admin
drafts: returns the updated drafts, the remaining slack and the total
absorbed seconds.  The `break` on exhausted slack leaves the remaining
drafts untouched. -/
def absorb_walk : ℤ → List DynamicsDraft → List DynamicsDraft × ℤ × ℤ
  | slack_remaining, [] => ([], slack_remaining, 0)
  | slack_remaining, d :: rest =>
      if slack_remaining ≤ 0 then (d :: rest, slack_remaining, 0)
      else
        let reduce_by := min d.raw_seconds slack_remaining
        let step := absorb_walk (slack_remaining - reduce_by) rest
        ({ d with raw_seconds := d.raw_seconds - reduce_by } :: step.1, step.2.1,
          reduce_by + step.2.2)

/-- Order on drafts by sequence number (the `key=lambda item: item.sequence`
sort key; the stable sorts of the model are Mathlib's insertion sort, which
is stable like Python's). -/
def seqR (a b : DynamicsDraft) : Prop :=
  a.sequence ≤ b.sequence

instance : DecidableRel seqR := fun a b => Nat.decLe a.sequence b.sequence

instance : IsTotal DynamicsDraft seqR :=
  ⟨fun a b => Nat.le_total a.sequence b.sequence⟩

instance : IsTrans DynamicsDraft seqR :=
  ⟨fun _ _ _ hab hbc => Nat.le_trans hab hbc⟩

/-- Lexicographic character-code order on strings, Python's `<=` used by
`sorted(by_day.keys())`. -/
def strLeAux : List Char → List Char → Bool
  | [], _ => true
  | _ :: _, [] => false
  | a :: as, b :: bs => if a = b then strLeAux as bs else decide (a < b)

/-- Order on date strings. -/
def dateR (a b : String) : Prop :=
  strLeAux a.data b.data = true

instance : DecidableRel dateR := fun a b => instDecidableEqBool (strLeAux a.data b.data) true

/-- The per-day body of `apply_absorption`: partition the day's drafts into
admin (absorb-tagged) and work, harvest the work drafts' slack, walk the
admin drafts, drop those reduced to zero, and report. -/
def process_day (day : String) (day_drafts : List DynamicsDraft) (absorb_tag : String) :
    List DynamicsDraft × Option AbsorptionDayReport :=
  let admin := day_drafts.filter (fun d => isAdminDraft absorb_tag d)
  let work := day_drafts.filter (fun d => !(isAdminDraft absorb_tag d))
  if admin.isEmpty then (day_drafts, none)
  else
    let slack_seconds := (work.map (fun d => slack_seconds_from_raw_seconds d.raw_seconds)).sum
    let admin_raw_seconds := sumRaw admin
    let walked := absorb_walk slack_seconds admin
    let admin_left := walked.1.filter (fun d => 0 < d.raw_seconds)
    let leftover_raw_seconds := sumRaw admin_left
    let leftover_exported_minutes :=
      (admin_left.map (fun d => billable_minutes_from_raw_seconds d.raw_seconds d.multiplier)).sum
    (work ++ admin_left,
      some
        { date := day
          slack_seconds := slack_seconds
          admin_raw_seconds := admin_raw_seconds
          absorbed_seconds := walked.2.2
          leftover_raw_seconds := leftover_raw_seconds
          leftover_exported_minutes := leftover_exported_minutes })

/-- `dynamics_common.apply_absorption`: group drafts by local day, process
the days in ascending date order (each day's drafts restored to sequence
order first), then re-sort the surviving drafts by sequence number. -/
def apply_absorption (drafts : List DynamicsDraft) (absorb_tag : String) :
    List DynamicsDraft × List AbsorptionDayReport :=
  let dates := uniqueFirst (drafts.map (fun d => d.date))
  let sorted_dates := dates.insertionSort dateR
  let day_results := sorted_dates.map (fun day =>
    process_day day ((drafts.filter (fun d => d.date == day)).insertionSort seqR) absorb_tag)
  ((day_results.map (fun r => r.1)).flatten.insertionSort seqR,
    day_results.filterMap (fun r => r.2))

/-- One day's slice of the absorption pass: the day's drafts in sequence
order through `process_day` (the lambda inside `apply_absorption`). -/
def pd_day (drafts : List DynamicsDraft) (absorb_tag day : String) :
    List DynamicsDraft × Option AbsorptionDayReport :=
  process_day day ((drafts.filter (fun d => d.date == day)).insertionSort seqR) absorb_tag

/-- Report-header mapping and OS environment, both as association lists. -/
abbrev StrMap := List (String × String)

/-- `dynamics_common._env_key_for_header`: derive the environment-variable
name from a dotted configuration key. -/
def _env_key_for_header (header_key : String) : String :=
  "TIMEWARRIOR_" ++ pyReplace (pyUpper header_key) "." "_"

/-- `dynamics_common._get_header_value`: the header value, stripped, when
the key is present. -/
def _get_header_value (header : StrMap) (key : String) : Option String :=
  match lookupAssoc header key with
  | none => none
  | some v => some (pyStrip v)

/-- `dynamics_common._get_env_value`: the environment value of the derived
variable name, stripped, when set. -/
def _get_env_value (env : StrMap) (key : String) : Option String :=
  match lookupAssoc env (_env_key_for_header key) with
  | none => none
  | some v => some (pyStrip v)

/-- `dynamics_common._resolve_value` ("value"-style settings such as the
config file path): start from the default, let a header value replace it,
then let an environment value replace that. -/
def _resolve_value (env : StrMap) (header : StrMap) (key default_value : String) : String :=
  let value := default_value
  let value :=
    match _get_header_value header key with
    | some header_value => header_value
    | none => value
  match _get_env_value env key with
  | some env_value => env_value
  | none => value

/-- `dynamics_common._resolve_override_value` ("override"-style settings):
environment first, then header, else nothing. -/
def _resolve_override_value (env : StrMap) (header : StrMap) (key : String) : Option String :=
  match _get_env_value env key with
  | some env_value => some env_value
  | none =>
      match _get_header_value header key with
      | some header_value => some header_value
      | none => none

/-- `overtime_common.DEFAULT_WORK_DAYS`. -/
def DEFAULT_WORK_DAYS : String := "1,2,3,4,5"

/-- `overtime_common.OvertimeConfig` (daily hours as an exact rational). -/
structure OvertimeConfig where
  daily_hours : ℚ
  work_days : List ℤ
deriving DecidableEq

/-- Python `int(item)` on an already-stripped item: an optional sign
followed by at least one decimal digit. -/
def pyParseInt (s : String) : Option ℤ :=
  let digits (cs : List Char) : Option ℕ :=
    if cs.isEmpty then none
    else if cs.all Char.isDigit then
      some (cs.foldl (fun acc c => acc * 10 + (c.toNat - '0'.toNat)) 0)
    else none
  match s.data with
  | '-' :: cs => (digits cs).map (fun n => -(n : ℤ))
  | '+' :: cs => (digits cs).map (fun n => (n : ℤ))
  | cs => (digits cs).map (fun n => (n : ℤ))

/-- The parsing loop of `overtime_common._parse_work_days`: split on commas,
strip, skip empties and unparsable items, keep integers in `1..7`,
deduplicate preserving order. -/
def parse_work_days_entries (raw : String) : List ℤ :=
  (pySplit raw ",").foldl
    (fun parsed part =>
      let item := pyStrip part
      if item.isEmpty then parsed
      else
        match pyParseInt item with
        | none => parsed
        | some day =>
            if day < 1 || 7 < day then parsed
            else if parsed.contains day then parsed
            else parsed ++ [day])
    []

/-- `overtime_common._parse_work_days`: parse the override string (the
default when absent or blank); when no valid entry survives, fall back to
parsing the default work days (the function's self-recursion, which
terminates after one step because the default parses non-empty). -/
def _parse_work_days (value : Option String) : List ℤ :=
  let raw₀ := match value with | some v => v | none => DEFAULT_WORK_DAYS
  let raw₁ := pyStrip raw₀
  let raw := if raw₁.isEmpty then DEFAULT_WORK_DAYS else raw₁
  let parsed := parse_work_days_entries raw
  if parsed.isEmpty then parse_work_days_entries DEFAULT_WORK_DAYS else parsed

/-- `overtime_common.effective_daily_hours`: raise `ValueError` on an empty
work-days set, else return the configured daily hours. -/
def effective_daily_hours (config : OvertimeConfig) : Except String ℚ :=
  if config.work_days.isEmpty then Except.error "WORK_DAYS must not be empty."
  else Except.ok config.daily_hours

/-- Fatal-error behaviour of the overtime entry points around the work-days
validation: a raised `ValueError` aborts the process with exit status 1 and
the message on standard error (both for the `load_config` handler in `main`
and for an uncaught exception reaching the interpreter); a run whose
validation succeeds continues towards exit status 0. -/
def overtime_validation_exit (config : OvertimeConfig) : Nat × Option String :=
  match effective_daily_hours config with
  | Except.error message => (1, some message)
  | Except.ok _ => (0, none)

/-- Concrete draft for the title-match merge scenario: first interval. -/
def standupDraftA : DynamicsDraft :=
  { date := "2024-05-06"
    raw_seconds := 3600
    multiplier := 1
    tags := ["acme"]
    project := "PRJ-1"
    project_task := "TASK-1"
    project_display := "Acme Project"
    project_task_display := "Acme Task"
    role := "Engineer"
    type := "Work"
    description := "Standup; fixed bug"
    external_comment := ""
    annotation_delimiter := "; "
    output_separator := "\n"
    sequence := 0 }

/-- Concrete draft for the title-match merge scenario: second interval, same
day and slot, different sub-items after the shared title. -/
def standupDraftB : DynamicsDraft :=
  { standupDraftA with
      raw_seconds := 1800
      description := "Standup; reviewed PR"
      sequence := 1 }

/-- Concrete absorb-tagged variant of the second draft, for the absorption
scenarios. -/
def absorbDraftB : DynamicsDraft :=
  { standupDraftB with tags := ["admin"], absorbable := true }

/-- Concrete absorb-tagged draft with zero raw seconds. -/
def adminZeroDraft : DynamicsDraft :=
  { standupDraftA with tags := ["admin"], absorbable := true, raw_seconds := 0 }

/-- Concrete non-absorbable draft with zero raw seconds. -/
def workZeroDraft : DynamicsDraft :=
  { standupDraftA with raw_seconds := 0, sequence := 1 }


/-! ### Duration/rounding engine lemmas -/

theorem _ceil_div_eq_ceil (q : ℚ) (d : Nat) (hd : 0 < d) :
    _ceil_div q d = (⌈q / (d : ℚ)⌉).toNat := by
  unfold _ceil_div
  by_cases hq : 0 < q
  · rw [if_pos hq]
    have hqnum : 0 < q.num := Rat.num_pos.mpr hq
    set N := q.num.toNat with hN
    set M := q.den * d with hM
    have hN1 : 1 ≤ N := by omega
    have hden : 0 < q.den := q.pos
    have hMpos : 0 < M := Nat.mul_pos hden hd
    have hdm := Nat.div_add_mod (N + M - 1) M
    have hmod := Nat.mod_lt (N + M - 1) hMpos
    set k := (N + M - 1) / M with hk
    have hA : N ≤ M * k := by omega
    have hB : M * k < N + M := by omega
    have hM' : (0 : ℚ) < (M : ℚ) := by exact_mod_cast hMpos
    have hcast : q / (d : ℚ) = (N : ℚ) / (M : ℚ) := by
      have h1 : ((N : ℤ) : ℚ) = (q.num : ℚ) := by
        rw [hN, Int.toNat_of_nonneg hqnum.le]
      have h1q : (N : ℚ) = (q.num : ℚ) := by exact_mod_cast h1
      have h2 : ((M : ℕ) : ℚ) = (q.den : ℚ) * (d : ℚ) := by
        rw [hM]; push_cast; ring
      rw [h1q, h2, ← div_div, Rat.num_div_den]
    have hceil : ⌈q / (d : ℚ)⌉ = (k : ℤ) := by
      rw [hcast, Int.ceil_eq_iff]
      constructor
      · rw [lt_div_iff₀ hM']
        have hB' : (M : ℚ) * (k : ℚ) < (N : ℚ) + (M : ℚ) := by exact_mod_cast hB
        push_cast
        nlinarith
      · rw [div_le_iff₀ hM']
        have hA' : (N : ℚ) ≤ (M : ℚ) * (k : ℚ) := by exact_mod_cast hA
        push_cast
        nlinarith
    rw [hceil, Int.toNat_natCast]
  · rw [if_neg hq]
    have hq' : q ≤ 0 := le_of_not_lt hq
    have hd' : (0 : ℚ) ≤ (d : ℚ) := by positivity
    have hdiv : q / (d : ℚ) ≤ 0 := div_nonpos_iff.mpr (Or.inr ⟨hq', hd'⟩)
    symm
    rw [Int.toNat_eq_zero]
    exact Int.ceil_le.mpr (by exact_mod_cast hdiv)

theorem round_seconds_mono {q₁ q₂ : ℚ} (h : q₁ ≤ q₂) :
    round_seconds_to_15m_blocks q₁ ≤ round_seconds_to_15m_blocks q₂ := by
  unfold round_seconds_to_15m_blocks
  have h900 : (0 : Nat) < 900 := by norm_num
  rw [_ceil_div_eq_ceil q₁ 900 h900, _ceil_div_eq_ceil q₂ 900 h900]
  have : ⌈q₁ / (900 : ℚ)⌉ ≤ ⌈q₂ / (900 : ℚ)⌉ :=
    Int.ceil_le_ceil (by
      apply div_le_div_of_nonneg_right h ?_
      norm_num)
  exact Nat.mul_le_mul_right 900 (Int.toNat_le_toNat this)

theorem le_round_seconds {q : ℚ} (h : 0 ≤ q) :
    q ≤ (round_seconds_to_15m_blocks q : ℚ) := by
  unfold round_seconds_to_15m_blocks
  rcases eq_or_lt_of_le h with h0 | h0
  · rw [← h0]
    positivity
  · rw [_ceil_div_eq_ceil q 900 (by norm_num)]
    have h1 : q / (900 : ℚ) ≤ (⌈q / (900 : ℚ)⌉ : ℚ) := Int.le_ceil _
    have h2 : ((⌈q / (900 : ℚ)⌉ : ℤ) : ℚ) ≤ ((⌈q / (900 : ℚ)⌉.toNat : ℤ) : ℚ) := by
      exact_mod_cast Int.self_le_toNat _
    have h3 : q / (900 : ℚ) ≤ (⌈q / (900 : ℚ)⌉.toNat : ℚ) := by
      calc q / (900 : ℚ) ≤ ((⌈q / (900 : ℚ)⌉ : ℤ) : ℚ) := h1
        _ ≤ _ := by exact_mod_cast h2
    have h900 : (0 : ℚ) < 900 := by norm_num
    rw [div_le_iff₀ h900] at h3
    push_cast
    linarith

theorem slack_seconds_nonneg {raw_seconds : ℤ} (h : 0 ≤ raw_seconds) :
    0 ≤ slack_seconds_from_raw_seconds raw_seconds := by
  unfold slack_seconds_from_raw_seconds
  have h' : (0 : ℚ) ≤ (raw_seconds : ℚ) := by exact_mod_cast h
  have h1 := le_round_seconds h'
  have h2 : raw_seconds ≤ (round_seconds_to_15m_blocks (raw_seconds : ℚ) : ℤ) := by
    exact_mod_cast h1
  omega

/-- C2: for raw_seconds ≥ 0 and a fixed multiplier > 0, billable minutes is
the multiplied seconds rounded up to the next multiple of 900 then divided
by 60; it is non-decreasing in raw_seconds, is 0 at raw_seconds 0, is a
multiple of 15 at multiplier 1, and maps raw_seconds 1 at multiplier 1 to
15 minutes. -/
theorem billable_minutes_rounding_contract (multiplier : ℚ) (hm : 0 < multiplier) :
    (∀ r₁ r₂ : ℤ, 0 ≤ r₁ → r₁ ≤ r₂ →
        billable_minutes_from_raw_seconds r₁ multiplier
          ≤ billable_minutes_from_raw_seconds r₂ multiplier)
    ∧ billable_minutes_from_raw_seconds 0 multiplier = 0
    ∧ (∀ r : ℤ, billable_minutes_from_raw_seconds r multiplier
        = round_seconds_to_15m_blocks ((r : ℚ) * multiplier) / 60)
    ∧ (∀ r : ℤ, billable_minutes_from_raw_seconds r 1 % 15 = 0)
    ∧ billable_minutes_from_raw_seconds 1 1 = 15 := by
  refine ⟨?_, ?_, fun r => rfl, ?_, ?_⟩
  · intro r₁ r₂ _ h12
    unfold billable_minutes_from_raw_seconds
    apply Nat.div_le_div_right
    apply round_seconds_mono
    have : (r₁ : ℚ) ≤ (r₂ : ℚ) := by exact_mod_cast h12
    exact mul_le_mul_of_nonneg_right this hm.le
  · unfold billable_minutes_from_raw_seconds round_seconds_to_15m_blocks _ceil_div
    norm_num
  · intro r
    unfold billable_minutes_from_raw_seconds round_seconds_to_15m_blocks
    set b := _ceil_div ((r : ℚ) * 1) 900 with hb
    have h1 : b * 900 = b * 15 * 60 := by ring
    rw [h1, Nat.mul_div_cancel _ (by norm_num : 0 < 60), Nat.mul_mod_left]
  · unfold billable_minutes_from_raw_seconds round_seconds_to_15m_blocks _ceil_div
    norm_num

/-- Witness for C2 at multiplier 1: a positive multiplier for which
raw_seconds 1 yields 15 minutes. -/
theorem billable_minutes_rounding_contract_witness :
    (0 : ℚ) < 1 ∧ billable_minutes_from_raw_seconds 1 1 = 15 :=
  ⟨by norm_num, (billable_minutes_rounding_contract 1 (by norm_num)).2.2.2.2⟩

/-! ### Project resolver lemmas -/

theorem resolve_loop_exact (tags : List String) (configs : List JObj) :
    ∀ (chosen : Option JObj) (c : JObj),
      configs.find? (fun pc => setEqB (getTags pc) tags) = some c →
      resolve_loop tags configs chosen = c := by
  induction configs with
  | nil => intro chosen c h; simp at h
  | cons pc rest ih =>
      intro chosen c h
      by_cases hpc : setEqB (getTags pc) tags
      · simp only [List.find?, hpc] at h
        simp only [Option.some_inj] at h
        subst h
        simp only [resolve_loop]
        rw [hpc]
        simp
      · have hpc' : setEqB (getTags pc) tags = false := by
          simpa using hpc
        simp only [List.find?, hpc'] at h
        by_cases hsub : ssubB (getTags pc) tags
        · cases chosen with
          | none => simpa [resolve_loop, hpc', hsub] using ih (some pc) c h
          | some cur =>
              by_cases hlt : diffCard tags (getTags pc) < diffCard tags (getTags cur)
              · simpa [resolve_loop, hpc', hsub, hlt] using ih (some pc) c h
              · simpa [resolve_loop, hpc', hsub, hlt] using ih (some cur) c h
        · have hsub' : ssubB (getTags pc) tags = false := by simpa using hsub
          simpa [resolve_loop, hpc', hsub'] using ih chosen c h

theorem resolve_loop_no_exact (tags : List String) (configs : List JObj)
    (hall : ∀ pc ∈ configs, setEqB (getTags pc) tags = false) :
    ∀ chosen : Option JObj,
      resolve_loop tags configs chosen
        = resolve_finish tags
            (candFold tags chosen (configs.filter (fun pc => ssubB (getTags pc) tags))) := by
  induction configs with
  | nil => intro chosen; cases chosen <;> simp [resolve_loop, candFold, resolve_finish]
  | cons pc rest ih =>
      intro chosen
      have hpc : setEqB (getTags pc) tags = false := hall pc (List.mem_cons_self pc rest)
      have hall' : ∀ x ∈ rest, setEqB (getTags x) tags = false := fun x hx =>
        hall x (List.mem_cons_of_mem pc hx)
      by_cases hsub : ssubB (getTags pc) tags
      · cases chosen with
        | none =>
            simp only [resolve_loop, hpc, hsub, Bool.false_eq_true, if_false, if_true]
            rw [ih hall' (some pc)]
            simp only [List.filter_cons, hsub, if_true]
            rfl
        | some cur =>
            simp only [resolve_loop, hpc, hsub, Bool.false_eq_true, if_false, if_true]
            simp only [List.filter_cons, hsub, if_true]
            by_cases hlt : diffCard tags (getTags pc) < diffCard tags (getTags cur)
            · rw [if_pos hlt, ih hall' (some pc)]
              simp [candFold, pickBest, hlt]
            · rw [if_neg hlt, ih hall' (some cur)]
              simp [candFold, pickBest, hlt]
      · have hsub' : ssubB (getTags pc) tags = false := by simpa using hsub
        simp only [resolve_loop, hpc, hsub', Bool.false_eq_true, if_false]
        rw [ih hall' chosen]
        simp only [List.filter_cons, hsub', Bool.false_eq_true, if_false]

theorem candFold_some (tags : List String) (l : List JObj) :
    ∀ b : JObj, candFold tags (some b) l = some (l.foldl (pickBest tags) b) := by
  induction l with
  | nil => intro b; rfl
  | cons c cs ih => intro b; rw [candFold, ih, List.foldl_cons]

theorem foldl_pickBest_mem (tags : List String) (l : List JObj) :
    ∀ b : JObj, l.foldl (pickBest tags) b ∈ b :: l := by
  induction l with
  | nil => intro b; simp
  | cons c cs ih =>
      intro b
      rw [List.foldl_cons]
      have h := ih (pickBest tags b c)
      have hp : pickBest tags b c = c ∨ pickBest tags b c = b := by
        unfold pickBest
        by_cases hlt : diffCard tags (getTags c) < diffCard tags (getTags b) <;> simp [hlt]
      rcases List.mem_cons.mp h with h1 | h1
      · rcases hp with hp | hp <;> rw [h1, hp] <;> simp
      · simp [List.mem_cons]
        tauto

/-- C1 (amended): over configuration lists whose dicts are non-empty (have
at least one key), project resolution returns the exact match when one
exists, regardless of partial matches; otherwise, among configs whose
required-tag set is a strict subset of T, it returns the first one
minimizing |T − config_tags| (input-order tie-break); otherwise the
synthesized fallback.  Stated as agreement with the specification's own
resolution algorithm. -/
theorem resolve_project_config_contract (tags : List String) (project_configs : List JObj)
    (hne : ∀ c ∈ project_configs, c ≠ ([] : JObj)) :
    resolve_project_config tags project_configs
      = spec_resolve_project_config tags project_configs := by
  unfold resolve_project_config spec_resolve_project_config
  cases hfind : project_configs.find? (fun c => setEqB (getTags c) tags) with
  | some c => exact resolve_loop_exact tags project_configs none c hfind
  | none =>
      have hall : ∀ pc ∈ project_configs, setEqB (getTags pc) tags = false := by
        intro pc hpc
        have := List.find?_eq_none.mp hfind pc hpc
        simpa using this
      rw [resolve_loop_no_exact tags project_configs hall none]
      cases hfilt : project_configs.filter (fun pc => ssubB (getTags pc) tags) with
      | nil => rfl
      | cons c cs =>
          have hstep : candFold tags none (c :: cs) = candFold tags (some c) cs := rfl
          rw [hstep, candFold_some]
          have hbmem : cs.foldl (pickBest tags) c ∈ c :: cs := foldl_pickBest_mem tags cs c
          have hmemcfg : cs.foldl (pickBest tags) c ∈ project_configs := by
            apply List.mem_of_mem_filter (p := fun pc => ssubB (getTags pc) tags)
            rw [hfilt]
            exact hbmem
          have hbne : cs.foldl (pickBest tags) c ≠ ([] : JObj) := hne _ hmemcfg
          have : (cs.foldl (pickBest tags) c).isEmpty = false := by
            rw [List.isEmpty_eq_false]
            exact hbne
          simp [resolve_finish, this]

/-- Witness for C1 (amended) on a concrete configuration list of non-empty
dicts with a partial and an exact match. -/
theorem resolve_project_config_contract_witness :
    (∀ c ∈ [[("timew_tags", JVal.arr ["a"]), ("project", JVal.str "P1")],
            [("timew_tags", JVal.arr ["a", "b"]), ("project", JVal.str "P2")]],
        c ≠ ([] : JObj))
    ∧ resolve_project_config ["a", "b"]
        [[("timew_tags", JVal.arr ["a"]), ("project", JVal.str "P1")],
         [("timew_tags", JVal.arr ["a", "b"]), ("project", JVal.str "P2")]]
      = spec_resolve_project_config ["a", "b"]
        [[("timew_tags", JVal.arr ["a"]), ("project", JVal.str "P1")],
         [("timew_tags", JVal.arr ["a", "b"]), ("project", JVal.str "P2")]] :=
  ⟨by decide, resolve_project_config_contract _ _ (by decide)⟩

/-- C1 counterexample: with tag set `{"a"}` and the single configuration
`{}` (an empty dict), that config is a strict-subset candidate — the unique
one, hence the minimizer of |T − config_tags| — and no exact match exists;
the claim therefore demands it be returned, yet `resolve_project_config`
synthesizes the fallback instead, because the final `if chosen_config:`
treats the empty dict as falsy. -/
theorem resolve_project_config_empty_dict_counterexample :
    setEqB (getTags ([] : JObj)) ["a"] = false
    ∧ ssubB (getTags ([] : JObj)) ["a"] = true
    ∧ resolve_project_config ["a"] [([] : JObj)] = fallback_config ["a"]
    ∧ resolve_project_config ["a"] [([] : JObj)] ≠ ([] : JObj) := by
  refine ⟨by decide, by decide, by decide, by decide⟩

/-! ### Merge engine lemmas -/

theorem sumRaw_cons (d : DynamicsDraft) (l : List DynamicsDraft) :
    sumRaw (d :: l) = d.raw_seconds + sumRaw l := by
  simp [sumRaw]

theorem sumRaw_append (l₁ l₂ : List DynamicsDraft) :
    sumRaw (l₁ ++ l₂) = sumRaw l₁ + sumRaw l₂ := by
  simp [sumRaw]

theorem merge_drafts_sumRaw (drafts : List DynamicsDraft) (new_draft : DynamicsDraft)
    (moet mdv ifm : Bool) :
    sumRaw (merge_drafts drafts new_draft moet mdv ifm)
      = sumRaw drafts + new_draft.raw_seconds := by
  induction drafts with
  | nil => simp [merge_drafts, sumRaw]
  | cons e rest ih =>
      simp only [merge_drafts]
      by_cases h1 : should_merge_base_draft e new_draft mdv ifm
      · simp only [h1, if_true]
        by_cases h2 : e.description == new_draft.description
        · simp only [h2, if_true, sumRaw_cons]
          ring
        · simp only [h2, Bool.false_eq_true, if_false]
          by_cases h3 : moet && e.description.length + new_draft.description.length ≤ MAX_DESCRIPTION_LENGTH
          · simp only [h3, if_true, sumRaw_cons]
            ring
          · simp only [h3, Bool.false_eq_true, if_false]
            by_cases h4 : ((pySplit e.description e.annotation_delimiter).headD ""
                  == (pySplit new_draft.description e.annotation_delimiter).headD "")
                && e.description.length + new_draft.description.length ≤ MAX_DESCRIPTION_LENGTH
            · simp only [h4, if_true, sumRaw_cons]
              ring
            · simp only [h4, Bool.false_eq_true, if_false, sumRaw_cons, ih]
              ring
      · simp only [h1, Bool.false_eq_true, if_false, sumRaw_cons, ih]
        ring

/-- C3: merging drafts A then B into any accumulator yields the same total
raw_seconds as merging B then A (each insertion carrying its own
merge-on-equal-tags policy); the totals are order-independent. -/
theorem merge_drafts_total_commutes (drafts : List DynamicsDraft) (a b : DynamicsDraft)
    (moetA moetB mdv ifm : Bool) :
    sumRaw (merge_drafts (merge_drafts drafts a moetA mdv ifm) b moetB mdv ifm)
      = sumRaw (merge_drafts (merge_drafts drafts b moetB mdv ifm) a moetA mdv ifm) := by
  rw [merge_drafts_sumRaw, merge_drafts_sumRaw, merge_drafts_sumRaw, merge_drafts_sumRaw]
  ring

/-- C9: one call to merge_drafts either appends the new draft or rewrites
exactly one existing slot (adding the new draft's raw_seconds to it),
never removes a draft, and always grows the total raw_seconds by exactly
the new draft's raw_seconds. -/
theorem merge_drafts_insertion_shape (drafts : List DynamicsDraft) (new_draft : DynamicsDraft)
    (moet mdv ifm : Bool) :
    sumRaw (merge_drafts drafts new_draft moet mdv ifm)
        = sumRaw drafts + new_draft.raw_seconds
    ∧ (merge_drafts drafts new_draft moet mdv ifm = drafts ++ [new_draft]
       ∨ ∃ i, i < drafts.length
           ∧ (merge_drafts drafts new_draft moet mdv ifm).length = drafts.length
           ∧ (∀ j, j ≠ i →
                (merge_drafts drafts new_draft moet mdv ifm)[j]? = drafts[j]?)
           ∧ ∃ e e', drafts[i]? = some e
               ∧ (merge_drafts drafts new_draft moet mdv ifm)[i]? = some e'
               ∧ e'.raw_seconds = e.raw_seconds + new_draft.raw_seconds) := by
  refine ⟨merge_drafts_sumRaw drafts new_draft moet mdv ifm, ?_⟩
  induction drafts with
  | nil => left; rfl
  | cons e rest ih =>
      simp only [merge_drafts]
      by_cases h1 : should_merge_base_draft e new_draft mdv ifm
      · simp only [h1, if_true]
        by_cases h2 : e.description == new_draft.description
        · simp only [h2, if_true]
          right
          refine ⟨0, by simp, by simp, ?_, e, _, List.getElem?_cons_zero, List.getElem?_cons_zero, by simp⟩
          intro j hj
          cases j with
          | zero => exact absurd rfl hj
          | succ k => simp
        · simp only [h2, Bool.false_eq_true, if_false]
          by_cases h3 : moet && e.description.length + new_draft.description.length ≤ MAX_DESCRIPTION_LENGTH
          · simp only [h3, if_true]
            right
            refine ⟨0, by simp, by simp, ?_, e, _, List.getElem?_cons_zero, List.getElem?_cons_zero, by simp⟩
            intro j hj
            cases j with
            | zero => exact absurd rfl hj
            | succ k => simp
          · simp only [h3, Bool.false_eq_true, if_false]
            by_cases h4 : ((pySplit e.description e.annotation_delimiter).headD ""
                  == (pySplit new_draft.description e.annotation_delimiter).headD "")
                && e.description.length + new_draft.description.length ≤ MAX_DESCRIPTION_LENGTH
            · simp only [h4, if_true]
              right
              refine ⟨0, by simp, by simp, ?_, e, _, List.getElem?_cons_zero, List.getElem?_cons_zero, by simp⟩
              intro j hj
              cases j with
              | zero => exact absurd rfl hj
              | succ k => simp
            · simp only [h4, Bool.false_eq_true, if_false]
              rcases ih with hap | ⟨i, hilen, hlen, hoth, ex, ex', hget, hget', hraw⟩
              · left
                rw [hap]
                rfl
              · right
                refine ⟨i + 1, by simpa using hilen, by simpa using hlen, ?_,
                  ex, ex', by simpa using hget, by simpa using hget', hraw⟩
                intro j hj
                cases j with
                | zero => simp
                | succ k =>
                    have hk : k ≠ i := fun hk => hj (by rw [hk])
                    simpa using hoth k hk
      · simp only [h1, Bool.false_eq_true, if_false]
        rcases ih with hap | ⟨i, hilen, hlen, hoth, ex, ex', hget, hget', hraw⟩
        · left
          rw [hap]
          rfl
        · right
          refine ⟨i + 1, by simpa using hilen, by simpa using hlen, ?_,
            ex, ex', by simpa using hget, by simpa using hget', hraw⟩
          intro j hj
          cases j with
          | zero => simp
          | succ k =>
              have hk : k ≠ i := fun hk => hj (by rw [hk])
              simpa using hoth k hk

/-- C4: two same-day, same-slot drafts with descriptions "Standup; fixed
bug" and "Standup; reviewed PR" and merge_on_equal_tags disabled merge via
the title rule into one draft with description
"Standup; fixed bug; reviewed PR" and summed raw_seconds. -/
theorem title_match_merge_scenario :
    merge_drafts (merge_drafts [] standupDraftA false false false) standupDraftB false false false
      = [{ standupDraftA with
             raw_seconds := 5400
             description := "Standup; fixed bug; reviewed PR" }]
    ∧ (5400 : ℤ) = standupDraftA.raw_seconds + standupDraftB.raw_seconds :=
  ⟨by decide, by decide⟩

/-! ### Configuration precedence -/

/-- C7 (amended): both resolver styles apply env > header > default.  When
an environment value is present it wins for value-style and override-style
settings alike; with no environment value the header value wins; with
neither, value-style resolution returns the default and override-style
resolution returns nothing. -/
theorem resolve_value_precedence (env header : StrMap) (key default_value : String) :
    (∀ e, _get_env_value env key = some e →
        _resolve_value env header key default_value = e
        ∧ _resolve_override_value env header key = some e)
    ∧ (_get_env_value env key = none →
        (∀ h, _get_header_value header key = some h →
            _resolve_value env header key default_value = h
            ∧ _resolve_override_value env header key = some h)
        ∧ (_get_header_value header key = none →
            _resolve_value env header key default_value = default_value
            ∧ _resolve_override_value env header key = none)) := by
  unfold _resolve_value _resolve_override_value
  constructor
  · intro e he
    rw [he]
    cases hh : _get_header_value header key <;> simp
  · intro he
    rw [he]
    constructor
    · intro h hh
      rw [hh]
      simp
    · intro hh
      rw [hh]
      simp

/-- Witness for C7 (amended): the config-file key with both a header and an
environment value present resolves to the environment value under both
resolvers. -/
theorem resolve_value_precedence_witness :
    _get_env_value [("TIMEWARRIOR_REPORTS_DYNAMICS_CONFIG_FILE", "env.json")]
        "reports.dynamics.config_file" = some "env.json"
    ∧ (_resolve_value [("TIMEWARRIOR_REPORTS_DYNAMICS_CONFIG_FILE", "env.json")]
          [("reports.dynamics.config_file", "header.json")]
          "reports.dynamics.config_file" ".dynamics_config.json" = "env.json"
       ∧ _resolve_override_value [("TIMEWARRIOR_REPORTS_DYNAMICS_CONFIG_FILE", "env.json")]
          [("reports.dynamics.config_file", "header.json")]
          "reports.dynamics.config_file" = some "env.json") :=
  ⟨by decide,
    (resolve_value_precedence [("TIMEWARRIOR_REPORTS_DYNAMICS_CONFIG_FILE", "env.json")]
        [("reports.dynamics.config_file", "header.json")]
        "reports.dynamics.config_file" ".dynamics_config.json").1 "env.json" (by decide)⟩

/-- C7 counterexample: for the value-style config-file setting with both a
header value ("header.json") and an environment value ("env.json") present,
`_resolve_value` returns the environment value, not the header value the
claim requires. -/
theorem resolve_value_env_beats_header_counterexample :
    _get_header_value [("reports.dynamics.config_file", "header.json")]
        "reports.dynamics.config_file" = some "header.json"
    ∧ _get_env_value [("TIMEWARRIOR_REPORTS_DYNAMICS_CONFIG_FILE", "env.json")]
        "reports.dynamics.config_file" = some "env.json"
    ∧ _resolve_value [("TIMEWARRIOR_REPORTS_DYNAMICS_CONFIG_FILE", "env.json")]
        [("reports.dynamics.config_file", "header.json")]
        "reports.dynamics.config_file" ".dynamics_config.json" ≠ "header.json"
    ∧ _resolve_value [("TIMEWARRIOR_REPORTS_DYNAMICS_CONFIG_FILE", "env.json")]
        [("reports.dynamics.config_file", "header.json")]
        "reports.dynamics.config_file" ".dynamics_config.json" = "env.json" :=
  ⟨by decide, by decide, by decide, by decide⟩

/-! ### Overtime validation -/

/-- C8: an overtime configuration with an empty work-days set fails
validation fatally — `effective_daily_hours` raises and the process ends
with exit status 1 and the message on standard error — while a non-empty
set validates and the run proceeds towards exit status 0; moreover,
`_parse_work_days` itself never produces an empty set (it falls back to the
defaults). -/
theorem overtime_empty_work_days_validation (config : OvertimeConfig) :
    (config.work_days = [] →
        effective_daily_hours config = Except.error "WORK_DAYS must not be empty."
        ∧ overtime_validation_exit config = (1, some "WORK_DAYS must not be empty."))
    ∧ (config.work_days ≠ [] →
        effective_daily_hours config = Except.ok config.daily_hours
        ∧ overtime_validation_exit config = (0, none))
    ∧ (∀ v, _parse_work_days v ≠ []) := by
  refine ⟨?_, ?_, ?_⟩
  · intro h
    have hemp : config.work_days.isEmpty = true := by simp [h]
    constructor
    · simp [effective_daily_hours, hemp]
    · simp [overtime_validation_exit, effective_daily_hours, hemp]
  · intro h
    have hemp : config.work_days.isEmpty = false := by
      rw [List.isEmpty_eq_false]
      exact h
    constructor
    · simp [effective_daily_hours, hemp]
    · simp [overtime_validation_exit, effective_daily_hours, hemp]
  · intro v
    have key : ∀ X : List ℤ,
        (if X.isEmpty then parse_work_days_entries DEFAULT_WORK_DAYS else X) ≠ [] := by
      intro X
      by_cases hX : X.isEmpty = true
      · rw [if_pos hX]
        decide
      · rw [if_neg hX]
        intro hc
        exact hX (by simp [hc])
    exact key _

/-- Witness for C8: a config with an empty work-days set exits 1 with the
message; a config with work day 1 validates and heads to exit 0. -/
theorem overtime_empty_work_days_validation_witness :
    (({ daily_hours := 8, work_days := [] } : OvertimeConfig).work_days = []
      ∧ overtime_validation_exit { daily_hours := 8, work_days := [] }
          = (1, some "WORK_DAYS must not be empty."))
    ∧ (({ daily_hours := 8, work_days := [1] } : OvertimeConfig).work_days ≠ []
      ∧ overtime_validation_exit { daily_hours := 8, work_days := [1] } = (0, none)) :=
  ⟨⟨rfl, ((overtime_empty_work_days_validation { daily_hours := 8, work_days := [] }).1 rfl).2⟩,
   ⟨by decide,
    ((overtime_empty_work_days_validation { daily_hours := 8, work_days := [1] }).2.1
      (by decide)).2⟩⟩

/-! ### Absorption engine lemmas -/

theorem sumRaw_perm {l₁ l₂ : List DynamicsDraft} (h : l₁.Perm l₂) : sumRaw l₁ = sumRaw l₂ :=
  List.Perm.sum_eq (List.Perm.map (fun d => d.raw_seconds) h)

theorem sumRaw_eq_zero {l : List DynamicsDraft} (h : ∀ d ∈ l, d.raw_seconds = 0) :
    sumRaw l = 0 := by
  induction l with
  | nil => rfl
  | cons d rest ih =>
      rw [sumRaw_cons, h d (List.mem_cons_self d rest), ih fun x hx => h x (List.mem_cons_of_mem d hx)]
      ring

theorem sumRaw_filter_split (p : DynamicsDraft → Bool) (l : List DynamicsDraft) :
    sumRaw l = sumRaw (l.filter p) + sumRaw (l.filter (fun d => !(p d))) := by
  have h := List.filter_append_perm p l
  rw [← sumRaw_perm h, sumRaw_append]

theorem map_eq_const_of_map_eq {α β : Type} {f : α → β} {l₁ l₂ : List α} {c : β}
    (hmap : l₁.map f = l₂.map f) (hconst : ∀ x ∈ l₂, f x = c) :
    ∀ x ∈ l₁, f x = c := by
  intro x hx
  have h1 : f x ∈ l₁.map f := List.mem_map_of_mem f hx
  rw [hmap] at h1
  rcases List.mem_map.mp h1 with ⟨y, hy, hxy⟩
  rw [← hxy, hconst y hy]

theorem absorb_walk_conservation (l : List DynamicsDraft) :
    ∀ s : ℤ, sumRaw (absorb_walk s l).1 + (absorb_walk s l).2.2 = sumRaw l := by
  induction l with
  | nil => intro s; simp [absorb_walk, sumRaw]
  | cons d rest ih =>
      intro s
      by_cases hs : s ≤ 0
      · simp [absorb_walk, hs]
      · simp only [absorb_walk, hs, if_false, sumRaw_cons]
        have h := ih (s - min d.raw_seconds s)
        omega

theorem absorb_walk_absorbed_le (l : List DynamicsDraft) :
    ∀ s : ℤ, 0 ≤ s → (absorb_walk s l).2.2 ≤ s := by
  induction l with
  | nil => intro s hs; simpa [absorb_walk] using hs
  | cons d rest ih =>
      intro s hs
      by_cases hs0 : s ≤ 0
      · simpa [absorb_walk, hs0] using hs
      · simp only [absorb_walk, hs0, if_false]
        have h := ih (s - min d.raw_seconds s) (by omega)
        omega

theorem absorb_walk_absorbed_nonneg (l : List DynamicsDraft) :
    ∀ s : ℤ, (∀ d ∈ l, 0 ≤ d.raw_seconds) → 0 ≤ (absorb_walk s l).2.2 := by
  induction l with
  | nil => intro s _; simp [absorb_walk]
  | cons d rest ih =>
      intro s hl
      by_cases hs0 : s ≤ 0
      · simp [absorb_walk, hs0]
      · simp only [absorb_walk, hs0, if_false]
        have hd := hl d (List.mem_cons_self d rest)
        have h := ih (s - min d.raw_seconds s) fun x hx => hl x (List.mem_cons_of_mem d hx)
        omega

theorem absorb_walk_raw_nonneg (l : List DynamicsDraft) :
    ∀ s : ℤ, (∀ d ∈ l, 0 ≤ d.raw_seconds) →
      ∀ d ∈ (absorb_walk s l).1, 0 ≤ d.raw_seconds := by
  induction l with
  | nil => intro s _ d hd; simp [absorb_walk] at hd
  | cons d rest ih =>
      intro s hl x hx
      by_cases hs0 : s ≤ 0
      · simp only [absorb_walk, hs0, if_true] at hx
        exact hl x hx
      · simp only [absorb_walk, hs0, if_false, List.mem_cons] at hx
        rcases hx with hx | hx
        · have hd := hl d (List.mem_cons_self d rest)
          rw [hx]
          simp
        · exact ih (s - min d.raw_seconds s) (fun y hy => hl y (List.mem_cons_of_mem d hy)) x hx

theorem absorb_walk_map_date (l : List DynamicsDraft) :
    ∀ s : ℤ, (absorb_walk s l).1.map (fun d => d.date) = l.map (fun d => d.date) := by
  induction l with
  | nil => intro s; simp [absorb_walk]
  | cons d rest ih =>
      intro s
      by_cases hs0 : s ≤ 0
      · simp [absorb_walk, hs0]
      · simp only [absorb_walk, hs0, if_false, List.map_cons]
        rw [ih (s - min d.raw_seconds s)]

theorem absorb_walk_map_sequence (l : List DynamicsDraft) :
    ∀ s : ℤ, (absorb_walk s l).1.map (fun d => d.sequence) = l.map (fun d => d.sequence) := by
  induction l with
  | nil => intro s; simp [absorb_walk]
  | cons d rest ih =>
      intro s
      by_cases hs0 : s ≤ 0
      · simp [absorb_walk, hs0]
      · simp only [absorb_walk, hs0, if_false, List.map_cons]
        rw [ih (s - min d.raw_seconds s)]

theorem absorb_walk_map_isAdmin (l : List DynamicsDraft) (tag : String) :
    ∀ s : ℤ, (absorb_walk s l).1.map (fun d => isAdminDraft tag d)
      = l.map (fun d => isAdminDraft tag d) := by
  induction l with
  | nil => intro s; simp [absorb_walk]
  | cons d rest ih =>
      intro s
      by_cases hs0 : s ≤ 0
      · simp [absorb_walk, hs0]
      · simp only [absorb_walk, hs0, if_false, List.map_cons]
        rw [ih (s - min d.raw_seconds s)]
        simp [isAdminDraft]

theorem process_day_none (day : String) (dd : List DynamicsDraft) (tag : String)
    (hadm : (dd.filter (fun d => isAdminDraft tag d)).isEmpty = true) :
    process_day day dd tag = (dd, none) := by
  unfold process_day
  simp [hadm]

theorem process_day_some_shape (day : String) (dd : List DynamicsDraft) (tag : String)
    (hadm : (dd.filter (fun d => isAdminDraft tag d)).isEmpty = false) :
    (process_day day dd tag).1
      = dd.filter (fun d => !(isAdminDraft tag d))
        ++ (absorb_walk
              ((dd.filter (fun d => !(isAdminDraft tag d))).map
                (fun d => slack_seconds_from_raw_seconds d.raw_seconds)).sum
              (dd.filter (fun d => isAdminDraft tag d))).1.filter
            (fun d => 0 < d.raw_seconds) := by
  unfold process_day
  simp [hadm]

theorem process_day_dates (day : String) (dd : List DynamicsDraft) (tag : String)
    (h : ∀ d ∈ dd, d.date = day) :
    ∀ d ∈ (process_day day dd tag).1, d.date = day := by
  intro d hd
  by_cases hadm : (dd.filter (fun x => isAdminDraft tag x)).isEmpty
  · rw [process_day_none day dd tag hadm] at hd
    exact h d hd
  · rw [process_day_some_shape day dd tag (by simpa using hadm)] at hd
    rcases List.mem_append.mp hd with hw | ha
    · exact h d (List.mem_of_mem_filter hw)
    · have hwalk := List.mem_of_mem_filter ha
      have hconst : ∀ x ∈ dd.filter (fun x => isAdminDraft tag x), x.date = day :=
        fun x hx => h x (List.mem_of_mem_filter hx)
      exact map_eq_const_of_map_eq (absorb_walk_map_date _ _) hconst d hwalk

theorem process_day_work_filter (day : String) (dd : List DynamicsDraft) (tag : String) :
    (process_day day dd tag).1.filter (fun d => !(isAdminDraft tag d))
      = dd.filter (fun d => !(isAdminDraft tag d)) := by
  by_cases hadm : (dd.filter (fun x => isAdminDraft tag x)).isEmpty
  · rw [process_day_none day dd tag hadm]
  · rw [process_day_some_shape day dd tag (by simpa using hadm)]
    rw [List.filter_append]
    have h1 : (dd.filter (fun d => !(isAdminDraft tag d))).filter (fun d => !(isAdminDraft tag d))
        = dd.filter (fun d => !(isAdminDraft tag d)) := by
      rw [List.filter_filter]
      apply List.filter_congr
      intro x _
      simp
    have hconst : ∀ x ∈ dd.filter (fun x => isAdminDraft tag x), isAdminDraft tag x = true :=
      fun x hx => List.of_mem_filter hx
    have hwalkadm : ∀ x ∈ (absorb_walk
          ((dd.filter (fun d => !(isAdminDraft tag d))).map
            (fun d => slack_seconds_from_raw_seconds d.raw_seconds)).sum
          (dd.filter (fun x => isAdminDraft tag x))).1, isAdminDraft tag x = true :=
      map_eq_const_of_map_eq (absorb_walk_map_isAdmin _ tag _) hconst
    have h2 : ((absorb_walk
          ((dd.filter (fun d => !(isAdminDraft tag d))).map
            (fun d => slack_seconds_from_raw_seconds d.raw_seconds)).sum
          (dd.filter (fun x => isAdminDraft tag x))).1.filter
            (fun d => 0 < d.raw_seconds)).filter (fun d => !(isAdminDraft tag d)) = [] := by
      rw [List.filter_eq_nil_iff]
      intro x hx
      have := hwalkadm x (List.mem_of_mem_filter hx)
      simp [this]
    rw [h1, h2, List.append_nil]

theorem process_day_admin_filter (day : String) (dd : List DynamicsDraft) (tag : String)
    (hadm : (dd.filter (fun x => isAdminDraft tag x)).isEmpty = false) :
    (process_day day dd tag).1.filter (fun d => isAdminDraft tag d)
      = (absorb_walk
            ((dd.filter (fun d => !(isAdminDraft tag d))).map
              (fun d => slack_seconds_from_raw_seconds d.raw_seconds)).sum
            (dd.filter (fun x => isAdminDraft tag x))).1.filter
          (fun d => 0 < d.raw_seconds) := by
  rw [process_day_some_shape day dd tag hadm, List.filter_append]
  have h1 : (dd.filter (fun d => !(isAdminDraft tag d))).filter (fun d => isAdminDraft tag d)
      = [] := by
    rw [List.filter_eq_nil_iff]
    intro x hx
    have := List.of_mem_filter hx
    simp at this
    simp [this]
  have hconst : ∀ x ∈ dd.filter (fun x => isAdminDraft tag x), isAdminDraft tag x = true :=
    fun x hx => List.of_mem_filter hx
  have hwalkadm := map_eq_const_of_map_eq (absorb_walk_map_isAdmin
    (dd.filter (fun x => isAdminDraft tag x)) tag
    ((dd.filter (fun d => !(isAdminDraft tag d))).map
      (fun d => slack_seconds_from_raw_seconds d.raw_seconds)).sum) hconst
  have h2 : ((absorb_walk
        ((dd.filter (fun d => !(isAdminDraft tag d))).map
          (fun d => slack_seconds_from_raw_seconds d.raw_seconds)).sum
        (dd.filter (fun x => isAdminDraft tag x))).1.filter
          (fun d => 0 < d.raw_seconds)).filter (fun d => isAdminDraft tag d)
      = (absorb_walk
          ((dd.filter (fun d => !(isAdminDraft tag d))).map
            (fun d => slack_seconds_from_raw_seconds d.raw_seconds)).sum
          (dd.filter (fun x => isAdminDraft tag x))).1.filter (fun d => 0 < d.raw_seconds) := by
    rw [List.filter_eq_self]
    intro x hx
    exact hwalkadm x (List.mem_of_mem_filter hx)
  rw [h1, h2, List.nil_append]

theorem process_day_some_report (day : String) (dd : List DynamicsDraft) (tag : String)
    (hadm : (dd.filter (fun x => isAdminDraft tag x)).isEmpty = false) :
    (process_day day dd tag).2
      = some
          { date := day
            slack_seconds :=
              ((dd.filter (fun d => !(isAdminDraft tag d))).map
                (fun d => slack_seconds_from_raw_seconds d.raw_seconds)).sum
            admin_raw_seconds := sumRaw (dd.filter (fun x => isAdminDraft tag x))
            absorbed_seconds :=
              (absorb_walk
                ((dd.filter (fun d => !(isAdminDraft tag d))).map
                  (fun d => slack_seconds_from_raw_seconds d.raw_seconds)).sum
                (dd.filter (fun x => isAdminDraft tag x))).2.2
            leftover_raw_seconds :=
              sumRaw ((absorb_walk
                ((dd.filter (fun d => !(isAdminDraft tag d))).map
                  (fun d => slack_seconds_from_raw_seconds d.raw_seconds)).sum
                (dd.filter (fun x => isAdminDraft tag x))).1.filter
                  (fun d => 0 < d.raw_seconds))
            leftover_exported_minutes :=
              (((absorb_walk
                ((dd.filter (fun d => !(isAdminDraft tag d))).map
                  (fun d => slack_seconds_from_raw_seconds d.raw_seconds)).sum
                (dd.filter (fun x => isAdminDraft tag x))).1.filter
                  (fun d => 0 < d.raw_seconds)).map
                (fun d => billable_minutes_from_raw_seconds d.raw_seconds d.multiplier)).sum } := by
  unfold process_day
  simp [hadm, sumRaw]

theorem work_slack_nonneg (l : List DynamicsDraft) (h : ∀ d ∈ l, 0 ≤ d.raw_seconds) :
    0 ≤ (l.map (fun d => slack_seconds_from_raw_seconds d.raw_seconds)).sum := by
  apply List.sum_nonneg
  intro x hx
  rcases List.mem_map.mp hx with ⟨d, hd, hdx⟩
  rw [← hdx]
  exact slack_seconds_nonneg (h d hd)

theorem walk_report_facts (admin : List DynamicsDraft) (slack : ℤ)
    (hadmin_raw : ∀ d ∈ admin, 0 ≤ d.raw_seconds) (hslack : 0 ≤ slack) :
    sumRaw ((absorb_walk slack admin).1.filter (fun d => 0 < d.raw_seconds)) ≤ sumRaw admin
    ∧ (absorb_walk slack admin).2.2
        = sumRaw admin
          - sumRaw ((absorb_walk slack admin).1.filter (fun d => 0 < d.raw_seconds))
    ∧ 0 ≤ (absorb_walk slack admin).2.2
    ∧ (absorb_walk slack admin).2.2 ≤ slack := by
  have hcons := absorb_walk_conservation admin slack
  have habs_nonneg := absorb_walk_absorbed_nonneg admin slack hadmin_raw
  have habs_le := absorb_walk_absorbed_le admin slack hslack
  have hwalk_nonneg := absorb_walk_raw_nonneg admin slack hadmin_raw
  have hsplit := sumRaw_filter_split (fun d => 0 < d.raw_seconds) (absorb_walk slack admin).1
  have hdropped : sumRaw ((absorb_walk slack admin).1.filter
      (fun d => !(decide (0 < d.raw_seconds)))) = 0 := by
    apply sumRaw_eq_zero
    intro d hd
    have h1 := List.of_mem_filter hd
    have h2 := hwalk_nonneg d (List.mem_of_mem_filter hd)
    simp at h1
    omega
  rw [hdropped] at hsplit
  refine ⟨by omega, by omega, habs_nonneg, habs_le⟩

theorem process_day_report (day : String) (dd : List DynamicsDraft) (tag : String)
    (hraw : ∀ d ∈ dd, 0 ≤ d.raw_seconds) :
    ∀ rep : AbsorptionDayReport, (process_day day dd tag).2 = some rep →
      rep.date = day
      ∧ rep.admin_raw_seconds = sumRaw (dd.filter (fun d => isAdminDraft tag d))
      ∧ rep.leftover_raw_seconds
          = sumRaw ((process_day day dd tag).1.filter (fun d => isAdminDraft tag d))
      ∧ rep.leftover_raw_seconds ≤ rep.admin_raw_seconds
      ∧ rep.absorbed_seconds = rep.admin_raw_seconds - rep.leftover_raw_seconds
      ∧ 0 ≤ rep.absorbed_seconds
      ∧ rep.absorbed_seconds ≤ rep.slack_seconds := by
  intro rep hrep
  by_cases hadm : (dd.filter (fun x => isAdminDraft tag x)).isEmpty
  · rw [process_day_none day dd tag hadm] at hrep
    simp at hrep
  · have hadm' : (dd.filter (fun x => isAdminDraft tag x)).isEmpty = false := by simpa using hadm
    rw [process_day_some_report day dd tag hadm'] at hrep
    rw [process_day_admin_filter day dd tag hadm']
    set W := dd.filter (fun d => !(isAdminDraft tag d)) with hW
    set A := dd.filter (fun x => isAdminDraft tag x) with hA
    set S := (W.map (fun d => slack_seconds_from_raw_seconds d.raw_seconds)).sum with hS
    have hrep' := (Option.some_inj.mp hrep).symm
    subst hrep'
    have hadmin_raw : ∀ d ∈ A, 0 ≤ d.raw_seconds := by
      intro d hd
      rw [hA] at hd
      exact hraw d (List.mem_of_mem_filter hd)
    have hwork_raw : ∀ d ∈ W, 0 ≤ d.raw_seconds := by
      intro d hd
      rw [hW] at hd
      exact hraw d (List.mem_of_mem_filter hd)
    have hslack : 0 ≤ S := by
      rw [hS]
      exact work_slack_nonneg W hwork_raw
    have hfacts := walk_report_facts A S hadmin_raw hslack
    exact ⟨rfl, rfl, rfl, hfacts.1, hfacts.2.1, hfacts.2.2.1, hfacts.2.2.2⟩

theorem uniqueFirst_foldl_mem (l : List String) :
    ∀ (acc : List String) (a : String),
      a ∈ l.foldl (fun acc item => if acc.contains item then acc else acc ++ [item]) acc
        ↔ a ∈ acc ∨ a ∈ l := by
  induction l with
  | nil => intro acc a; simp
  | cons x xs ih =>
      intro acc a
      rw [List.foldl_cons, ih]
      by_cases hc : acc.contains x
      · rw [if_pos hc]
        have hx : x ∈ acc := by simpa using hc
        constructor
        · rintro (h | h)
          · exact Or.inl h
          · exact Or.inr (List.mem_cons_of_mem x h)
        · rintro (h | h)
          · exact Or.inl h
          · rcases List.mem_cons.mp h with rfl | h
            · exact Or.inl hx
            · exact Or.inr h
      · rw [if_neg hc]
        simp only [List.mem_append, List.mem_singleton, List.mem_cons]
        tauto

theorem uniqueFirst_mem (l : List String) (a : String) : a ∈ uniqueFirst l ↔ a ∈ l := by
  unfold uniqueFirst
  rw [uniqueFirst_foldl_mem]
  simp

theorem uniqueFirst_foldl_nodup (l : List String) :
    ∀ acc : List String, acc.Nodup →
      (l.foldl (fun acc item => if acc.contains item then acc else acc ++ [item]) acc).Nodup := by
  induction l with
  | nil => intro acc h; simpa using h
  | cons x xs ih =>
      intro acc h
      rw [List.foldl_cons]
      by_cases hc : acc.contains x
      · rw [if_pos hc]
        exact ih acc h
      · rw [if_neg hc]
        apply ih
        rw [List.nodup_append]
        refine ⟨h, List.nodup_singleton x, ?_⟩
        intro y hy hy'
        rcases List.mem_singleton.mp hy' with rfl
        exact hc (by simpa using hy)

theorem uniqueFirst_nodup (l : List String) : (uniqueFirst l).Nodup :=
  uniqueFirst_foldl_nodup l [] List.nodup_nil

theorem partition_perm_by_date (days : List String) :
    ∀ l : List DynamicsDraft, days.Nodup → (∀ d ∈ l, d.date ∈ days) →
      ((days.map (fun day => l.filter (fun d => d.date == day))).flatten).Perm l := by
  induction days with
  | nil =>
      intro l _ hcov
      have : l = [] := List.eq_nil_iff_forall_not_mem.mpr fun d hd => by
        simpa using hcov d hd
      subst this
      simp
  | cons day ds ih =>
      intro l hnd hcov
      have hday_not : day ∉ ds := (List.nodup_cons.mp hnd).1
      have hnd' : ds.Nodup := (List.nodup_cons.mp hnd).2
      rw [List.map_cons, List.flatten_cons]
      have hkey : ∀ d' ∈ ds,
          l.filter (fun d => d.date == d')
            = (l.filter (fun d => !(d.date == day))).filter (fun d => d.date == d') := by
        intro d' hd'
        rw [List.filter_filter]
        apply List.filter_congr
        intro x _
        by_cases hx : x.date == d'
        · have hne : x.date ≠ day := by
            have : x.date = d' := by simpa using hx
            rw [this]
            intro hcontra
            exact hday_not (hcontra ▸ hd')
          simp [hx, hne]
        · simp [hx]
      have hmapeq : ds.map (fun day' => l.filter (fun d => d.date == day'))
          = ds.map (fun day' =>
              (l.filter (fun d => !(d.date == day))).filter (fun d => d.date == day')) :=
        List.map_congr_left hkey
      rw [hmapeq]
      have hcov' : ∀ d ∈ l.filter (fun d => !(d.date == day)), d.date ∈ ds := by
        intro d hd
        have h1 := List.of_mem_filter hd
        have h2 := hcov d (List.mem_of_mem_filter hd)
        have hne : d.date ≠ day := by simpa using h1
        rcases List.mem_cons.mp h2 with h | h
        · exact absurd h hne
        · exact h
      have hperm2 := ih (l.filter (fun d => !(d.date == day))) hnd' hcov'
      exact List.Perm.trans (List.Perm.append_left _ hperm2) (List.filter_append_perm _ l)

theorem flatten_perm_of_forall₂ {α : Type} {L₁ L₂ : List (List α)}
    (h : List.Forall₂ List.Perm L₁ L₂) : L₁.flatten.Perm L₂.flatten := by
  induction h with
  | nil => simp
  | cons hx _ ih =>
      rw [List.flatten_cons, List.flatten_cons]
      exact List.Perm.append hx ih

theorem forall₂_perm_map {α β : Type} (l : List α) (f g : α → List β)
    (h : ∀ x ∈ l, (f x).Perm (g x)) : List.Forall₂ List.Perm (l.map f) (l.map g) := by
  induction l with
  | nil => simp
  | cons x xs ih =>
      rw [List.map_cons, List.map_cons]
      exact List.Forall₂.cons (h x (List.mem_cons_self x xs))
        (ih fun y hy => h y (List.mem_cons_of_mem x hy))

theorem apply_absorption_eq (drafts : List DynamicsDraft) (tag : String) :
    apply_absorption drafts tag
      = ((((uniqueFirst (drafts.map (fun d => d.date))).insertionSort dateR).map
            (fun day => (pd_day drafts tag day).1)).flatten.insertionSort seqR,
         (((uniqueFirst (drafts.map (fun d => d.date))).insertionSort dateR).map
            (pd_day drafts tag)).filterMap (fun r => r.2)) := by
  simp only [apply_absorption, pd_day, List.map_map, Function.comp]
  rfl

theorem pd_day_dates (drafts : List DynamicsDraft) (tag : String) :
    ∀ day, ∀ x ∈ (pd_day drafts tag day).1, x.date = day := by
  intro day x hx
  unfold pd_day at hx
  refine process_day_dates day ((drafts.filter (fun d => d.date == day)).insertionSort seqR)
    tag ?_ x hx
  intro d hd
  have h1 := List.of_mem_filter ((List.mem_insertionSort seqR).mp hd)
  simpa using h1

theorem sumRaw_filter_flatten_day (g : String → List DynamicsDraft) (X : DynamicsDraft → Bool) :
    ∀ (days : List String) (day : String),
      (∀ d' ∈ days, ∀ x ∈ g d', x.date = d') → days.Nodup → day ∈ days →
      sumRaw (((days.map g).flatten).filter (fun d => d.date == day && X d))
        = sumRaw ((g day).filter X) := by
  intro days
  induction days with
  | nil => intro day _ _ hmem; simp at hmem
  | cons d₀ ds ih =>
      intro day hdates hnd hmem
      rw [List.map_cons, List.flatten_cons, List.filter_append, sumRaw_append]
      have hZ : ∀ M : List DynamicsDraft, (∀ x ∈ M, x.date ≠ day) →
          M.filter (fun d => d.date == day && X d) = [] := by
        intro M hM
        rw [List.filter_eq_nil_iff]
        intro x hx
        simp [hM x hx]
      by_cases hd : day = d₀
      · subst hd
        have h1 : (g day).filter (fun d => d.date == day && X d) = (g day).filter X := by
          apply List.filter_congr
          intro x hx
          have := hdates day (List.mem_cons_self _ _) x hx
          simp [this]
        have h2 : ((ds.map g).flatten).filter (fun d => d.date == day && X d) = [] := by
          apply hZ
          intro x hx
          rcases List.mem_flatten.mp hx with ⟨lst, hlst, hxl⟩
          rcases List.mem_map.mp hlst with ⟨d', hd', rfl⟩
          have hxd := hdates d' (List.mem_cons_of_mem _ hd') x hxl
          rw [hxd]
          intro hcontra
          exact (List.nodup_cons.mp hnd).1 (hcontra ▸ hd')
        rw [h1, h2]
        simp [sumRaw]
      · have h1 : (g d₀).filter (fun d => d.date == day && X d) = [] := by
          apply hZ
          intro x hx
          rw [hdates d₀ (List.mem_cons_self _ _) x hx]
          exact fun hc => hd hc.symm
        have hmem' : day ∈ ds := by
          rcases List.mem_cons.mp hmem with h | h
          · exact absurd h hd
          · exact h
        rw [h1, ih day (fun d' hd' => hdates d' (List.mem_cons_of_mem _ hd'))
          (List.nodup_cons.mp hnd).2 hmem']
        simp [sumRaw]

theorem sumRaw_filter_day_input (drafts : List DynamicsDraft) (day : String)
    (X : DynamicsDraft → Bool) :
    sumRaw (((drafts.filter (fun d => d.date == day)).insertionSort seqR).filter X)
      = sumRaw (drafts.filter (fun d => d.date == day && X d)) := by
  have h1 := List.Perm.filter X (List.perm_insertionSort seqR (drafts.filter (fun d => d.date == day)))
  rw [sumRaw_perm h1, List.filter_filter]
  apply congrArg
  apply List.filter_congr
  intro x _
  rw [Bool.and_comm]

/-- C5: for every day report emitted by the absorption pass (with
non-negative raw seconds as the Draft invariant requires), the work total
raw_seconds of that day is unchanged, the admin total before is at least
the admin total after, the reported absorbed_seconds equals before minus
after, and absorbed_seconds is at most the reported slack_seconds. -/
theorem apply_absorption_day_conservation (drafts : List DynamicsDraft) (absorb_tag : String)
    (hraw : ∀ d ∈ drafts, 0 ≤ d.raw_seconds) :
    ∀ rep ∈ (apply_absorption drafts absorb_tag).2,
      sumRaw ((apply_absorption drafts absorb_tag).1.filter
          (fun d => d.date == rep.date && !(isAdminDraft absorb_tag d)))
        = sumRaw (drafts.filter (fun d => d.date == rep.date && !(isAdminDraft absorb_tag d)))
      ∧ sumRaw ((apply_absorption drafts absorb_tag).1.filter
            (fun d => d.date == rep.date && isAdminDraft absorb_tag d))
          ≤ sumRaw (drafts.filter (fun d => d.date == rep.date && isAdminDraft absorb_tag d))
      ∧ rep.absorbed_seconds
          = sumRaw (drafts.filter (fun d => d.date == rep.date && isAdminDraft absorb_tag d))
            - sumRaw ((apply_absorption drafts absorb_tag).1.filter
                (fun d => d.date == rep.date && isAdminDraft absorb_tag d))
      ∧ rep.absorbed_seconds ≤ rep.slack_seconds := by
  intro rep hrep
  rw [apply_absorption_eq] at hrep ⊢
  simp only at hrep ⊢
  set days := (uniqueFirst (drafts.map (fun d => d.date))).insertionSort dateR with hdays
  have hnd : days.Nodup :=
    ((List.perm_insertionSort dateR (uniqueFirst (drafts.map (fun d => d.date)))).nodup_iff).mpr
      (uniqueFirst_nodup _)
  rcases List.mem_filterMap.mp hrep with ⟨r, hrmem, hr2⟩
  rcases List.mem_map.mp hrmem with ⟨day, hdaymem, rfl⟩
  have hr2' : (process_day day ((drafts.filter (fun d => d.date == day)).insertionSort seqR)
      absorb_tag).2 = some rep := hr2
  have hdayraw : ∀ d ∈ (drafts.filter (fun d => d.date == day)).insertionSort seqR,
      0 ≤ d.raw_seconds :=
    fun d hd => hraw d (List.mem_of_mem_filter ((List.mem_insertionSort seqR).mp hd))
  have hfacts := process_day_report day
    ((drafts.filter (fun d => d.date == day)).insertionSort seqR) absorb_tag hdayraw rep hr2'
  have hdate : rep.date = day := hfacts.1
  have hout_perm := List.perm_insertionSort seqR
    ((days.map (fun day' => (pd_day drafts absorb_tag day').1)).flatten)
  have hsum_out : ∀ X : DynamicsDraft → Bool,
      sumRaw (((days.map (fun day' => (pd_day drafts absorb_tag day').1)).flatten.insertionSort
          seqR).filter (fun d => d.date == day && X d))
        = sumRaw (((pd_day drafts absorb_tag day).1).filter X) := by
    intro X
    rw [sumRaw_perm (List.Perm.filter _ hout_perm)]
    exact sumRaw_filter_flatten_day (fun day' => (pd_day drafts absorb_tag day').1) X days day
      (fun d' _ => pd_day_dates drafts absorb_tag d') hnd hdaymem
  rw [hdate]
  refine ⟨?_, ?_, ?_, hfacts.2.2.2.2.2.2⟩
  · rw [hsum_out (fun d => !(isAdminDraft absorb_tag d))]
    have hwork : ((pd_day drafts absorb_tag day).1).filter (fun d => !(isAdminDraft absorb_tag d))
        = ((drafts.filter (fun d => d.date == day)).insertionSort seqR).filter
            (fun d => !(isAdminDraft absorb_tag d)) :=
      process_day_work_filter day _ absorb_tag
    rw [hwork, sumRaw_filter_day_input]
  · rw [hsum_out (fun d => isAdminDraft absorb_tag d)]
    have h1 : sumRaw (((pd_day drafts absorb_tag day).1).filter
        (fun d => isAdminDraft absorb_tag d)) = rep.leftover_raw_seconds :=
      (hfacts.2.2.1).symm
    have h2 : sumRaw (drafts.filter (fun d => d.date == day && isAdminDraft absorb_tag d))
        = rep.admin_raw_seconds := by
      rw [← sumRaw_filter_day_input]
      exact (hfacts.2.1).symm
    rw [h1, h2]
    exact hfacts.2.2.2.1
  · rw [hsum_out (fun d => isAdminDraft absorb_tag d)]
    have h1 : sumRaw (((pd_day drafts absorb_tag day).1).filter
        (fun d => isAdminDraft absorb_tag d)) = rep.leftover_raw_seconds :=
      (hfacts.2.2.1).symm
    have h2 : sumRaw (drafts.filter (fun d => d.date == day && isAdminDraft absorb_tag d))
        = rep.admin_raw_seconds := by
      rw [← sumRaw_filter_day_input]
      exact (hfacts.2.1).symm
    rw [h1, h2]
    exact hfacts.2.2.2.2.1

/-- Witness for C5 on a concrete two-draft day with an absorb-tagged draft. -/
theorem apply_absorption_day_conservation_witness :
    (∀ d ∈ [standupDraftA, absorbDraftB], 0 ≤ d.raw_seconds)
    ∧ (∀ rep ∈ (apply_absorption [standupDraftA, absorbDraftB] "admin").2,
        sumRaw ((apply_absorption [standupDraftA, absorbDraftB] "admin").1.filter
            (fun d => d.date == rep.date && !(isAdminDraft "admin" d)))
          = sumRaw ([standupDraftA, absorbDraftB].filter
              (fun d => d.date == rep.date && !(isAdminDraft "admin" d)))
        ∧ sumRaw ((apply_absorption [standupDraftA, absorbDraftB] "admin").1.filter
              (fun d => d.date == rep.date && isAdminDraft "admin" d))
            ≤ sumRaw ([standupDraftA, absorbDraftB].filter
                (fun d => d.date == rep.date && isAdminDraft "admin" d))
        ∧ rep.absorbed_seconds
            = sumRaw ([standupDraftA, absorbDraftB].filter
                (fun d => d.date == rep.date && isAdminDraft "admin" d))
              - sumRaw ((apply_absorption [standupDraftA, absorbDraftB] "admin").1.filter
                  (fun d => d.date == rep.date && isAdminDraft "admin" d))
        ∧ rep.absorbed_seconds ≤ rep.slack_seconds) :=
  ⟨by decide, apply_absorption_day_conservation [standupDraftA, absorbDraftB] "admin" (by decide)⟩

theorem day_groups_perm (drafts : List DynamicsDraft) :
    ((((uniqueFirst (drafts.map (fun d => d.date))).insertionSort dateR).map
        (fun day => (drafts.filter (fun d => d.date == day)).insertionSort seqR)).flatten).Perm
      drafts := by
  set days := (uniqueFirst (drafts.map (fun d => d.date))).insertionSort dateR with hdays
  have hnd : days.Nodup :=
    ((List.perm_insertionSort dateR (uniqueFirst (drafts.map (fun d => d.date)))).nodup_iff).mpr
      (uniqueFirst_nodup _)
  have hcov : ∀ d ∈ drafts, d.date ∈ days := by
    intro d hd
    rw [hdays, List.mem_insertionSort, uniqueFirst_mem]
    exact List.mem_map_of_mem _ hd
  have h1 := forall₂_perm_map days
    (fun day => (drafts.filter (fun d => d.date == day)).insertionSort seqR)
    (fun day => drafts.filter (fun d => d.date == day))
    (fun day _ => List.perm_insertionSort seqR _)
  exact (flatten_perm_of_forall₂ h1).trans (partition_perm_by_date days drafts hnd hcov)

theorem pd_day_count_le (drafts : List DynamicsDraft) (tag day : String) (n : Nat) :
    (((pd_day drafts tag day).1).map (fun d => d.sequence)).count n
      ≤ ((((drafts.filter (fun d => d.date == day)).insertionSort seqR)).map
          (fun d => d.sequence)).count n := by
  unfold pd_day
  set dd := (drafts.filter (fun d => d.date == day)).insertionSort seqR with hdd
  by_cases hadm : (dd.filter (fun x => isAdminDraft tag x)).isEmpty
  · rw [process_day_none day dd tag hadm]
  · rw [process_day_some_shape day dd tag (by simpa using hadm)]
    rw [List.map_append, List.count_append]
    set W := dd.filter (fun d => !(isAdminDraft tag d)) with hW
    set A := dd.filter (fun x => isAdminDraft tag x) with hA
    set S := (W.map (fun d => slack_seconds_from_raw_seconds d.raw_seconds)).sum with hS
    have h1 : (((absorb_walk S A).1.filter (fun d => 0 < d.raw_seconds)).map
        (fun d => d.sequence)).count n
          ≤ (((absorb_walk S A).1).map (fun d => d.sequence)).count n :=
      List.Sublist.count_le (List.Sublist.map _ (List.filter_sublist _)) n
    rw [absorb_walk_map_sequence A S] at h1
    have hperm : (A ++ W).Perm dd := by
      rw [hA, hW]
      exact List.filter_append_perm _ dd
    have h2 : ((dd.map (fun d => d.sequence)).count n)
        = ((A.map (fun d => d.sequence)).count n) + ((W.map (fun d => d.sequence)).count n) := by
      rw [← List.Perm.count_eq (List.Perm.map _ hperm), List.map_append, List.count_append]
    omega

theorem out_seq_count_le (drafts : List DynamicsDraft) (tag : String) (n : Nat) :
    (((apply_absorption drafts tag).1).map (fun d => d.sequence)).count n
      ≤ (drafts.map (fun d => d.sequence)).count n := by
  rw [apply_absorption_eq]
  simp only
  set days := (uniqueFirst (drafts.map (fun d => d.date))).insertionSort dateR with hdays
  have hperm1 := List.perm_insertionSort seqR
    ((days.map (fun day => (pd_day drafts tag day).1)).flatten)
  rw [List.Perm.count_eq (List.Perm.map _ hperm1)]
  have hgroups := day_groups_perm drafts
  rw [← hdays] at hgroups
  rw [← List.Perm.count_eq (List.Perm.map (fun d => d.sequence) hgroups)]
  rw [List.map_flatten, List.map_flatten, List.count_flatten, List.count_flatten,
    List.map_map, List.map_map, List.map_map, List.map_map]
  apply List.sum_le_sum
  intro day _
  simp only [Function.comp]
  exact pd_day_count_le drafts tag day n

theorem sublist_of_strict_sorted (l₂ : List Nat) :
    ∀ l₁ : List Nat, l₁.Pairwise (· < ·) → l₂.Pairwise (· < ·) →
      (∀ x ∈ l₁, x ∈ l₂) → l₁.Sublist l₂ := by
  induction l₂ with
  | nil =>
      intro l₁ _ _ hmem
      cases l₁ with
      | nil => exact List.Sublist.refl []
      | cons a s => exact absurd (hmem a (List.mem_cons_self a s)) (List.not_mem_nil a)
  | cons b t ih =>
      intro l₁ h₁ h₂ hmem
      cases l₁ with
      | nil => exact List.nil_sublist (b :: t)
      | cons a s =>
          have ha₁ := (List.pairwise_cons.mp h₁).1
          have hs₁ := (List.pairwise_cons.mp h₁).2
          have hb₂ := (List.pairwise_cons.mp h₂).1
          have ht₂ := (List.pairwise_cons.mp h₂).2
          by_cases hab : a = b
          · subst hab
            apply List.Sublist.cons₂
            apply ih s hs₁ ht₂
            intro x hx
            have hx₂ := hmem x (List.mem_cons_of_mem a hx)
            rcases List.mem_cons.mp hx₂ with rfl | hx₂
            · exact absurd (ha₁ x hx) (lt_irrefl x)
            · exact hx₂
          · have ha_t : a ∈ t := by
              rcases List.mem_cons.mp (hmem a (List.mem_cons_self a s)) with h | h
              · exact absurd h hab
              · exact h
            apply List.Sublist.cons
            apply ih (a :: s) h₁ ht₂
            intro x hx
            rcases List.mem_cons.mp (hmem x hx) with h | hx₂
            · exfalso
              subst h
              rcases List.mem_cons.mp hx with h | hx₃
              · exact hab h.symm
              · have hlt1 := ha₁ _ hx₃
                have hlt2 := hb₂ a ha_t
                omega
            · exact hx₂

/-- C6: the absorption pass returns the draft list sorted by sequence
number; when the input drafts carry strictly increasing sequence numbers
(as the builder assigns them), the output's sequence numbers form a sublist
of the input's, so all still-present drafts keep their original relative
order. -/
theorem apply_absorption_sequence_restoration (drafts : List DynamicsDraft) (absorb_tag : String) :
    List.Sorted seqR (apply_absorption drafts absorb_tag).1
    ∧ (List.Pairwise (fun a b => a.sequence < b.sequence) drafts →
        ((apply_absorption drafts absorb_tag).1.map (fun d => d.sequence)).Sublist
          (drafts.map (fun d => d.sequence))) := by
  constructor
  · rw [apply_absorption_eq]
    exact List.sorted_insertionSort seqR _
  · intro hpw
    have hcount := out_seq_count_le drafts absorb_tag
    have hin_nodup : (drafts.map (fun d => d.sequence)).Nodup :=
      List.Pairwise.map _ (fun a b h => Nat.ne_of_lt h) hpw
    have hout_nodup : ((apply_absorption drafts absorb_tag).1.map (fun d => d.sequence)).Nodup :=
      List.nodup_iff_count_le_one.mpr fun n =>
        le_trans (hcount n) (List.nodup_iff_count_le_one.mp hin_nodup n)
    have hout_sorted : List.Pairwise (· ≤ ·)
        ((apply_absorption drafts absorb_tag).1.map (fun d => d.sequence)) := by
      have hs : List.Sorted seqR (apply_absorption drafts absorb_tag).1 := by
        rw [apply_absorption_eq]
        exact List.sorted_insertionSort seqR _
      exact List.Pairwise.map _ (fun a b h => h) hs
    have hout_lt : List.Pairwise (· < ·)
        ((apply_absorption drafts absorb_tag).1.map (fun d => d.sequence)) := by
      have hand := List.Pairwise.and hout_sorted hout_nodup
      exact hand.imp fun hab => lt_of_le_of_ne hab.1 hab.2
    have hin_lt : List.Pairwise (· < ·) (drafts.map (fun d => d.sequence)) :=
      List.Pairwise.map _ (fun a b h => h) hpw
    apply sublist_of_strict_sorted (drafts.map (fun d => d.sequence)) _ hout_lt hin_lt
    intro x hx
    have h1 : 0 < ((apply_absorption drafts absorb_tag).1.map (fun d => d.sequence)).count x :=
      List.count_pos_iff.mpr hx
    have h2 : 0 < (drafts.map (fun d => d.sequence)).count x :=
      lt_of_lt_of_le h1 (hcount x)
    exact List.count_pos_iff.mp h2

/-- Witness for C6 on a concrete two-draft list with strictly increasing
sequence numbers. -/
theorem apply_absorption_sequence_restoration_witness :
    List.Pairwise (fun a b => a.sequence < b.sequence) [standupDraftA, absorbDraftB]
    ∧ ((apply_absorption [standupDraftA, absorbDraftB] "admin").1.map
        (fun d => d.sequence)).Sublist ([standupDraftA, absorbDraftB].map (fun d => d.sequence)) :=
  ⟨by decide,
    (apply_absorption_sequence_restoration [standupDraftA, absorbDraftB] "admin").2 (by decide)⟩

/-- C10: with an absorb tag configured, every absorbable draft whose
raw_seconds is 0 after the day's walk is dropped from the output (the
surviving absorbable drafts all have strictly positive raw_seconds, so an
absorbable draft that entered with 0 and absorbed nothing is gone), while
every non-absorbable draft — zero raw_seconds included — passes through
unchanged; and a draft with raw_seconds 0 finalizes to a record with
duration_minutes 0. -/
theorem apply_absorption_zero_boundary (drafts : List DynamicsDraft) (absorb_tag : String) :
    (∀ d ∈ (apply_absorption drafts absorb_tag).1,
        isAdminDraft absorb_tag d = true → 0 < d.raw_seconds)
    ∧ (∀ d ∈ drafts, isAdminDraft absorb_tag d = false →
        d ∈ (apply_absorption drafts absorb_tag).1)
    ∧ (∀ d : DynamicsDraft, d.raw_seconds = 0 → (finalize_draft d).duration_minutes = 0) := by
  refine ⟨?_, ?_, ?_⟩
  · intro d hd hadm
    rw [apply_absorption_eq] at hd
    simp only at hd
    have hd' := (List.mem_insertionSort seqR).mp hd
    rcases List.mem_flatten.mp hd' with ⟨lst, hlst, hdl⟩
    rcases List.mem_map.mp hlst with ⟨day, _, rfl⟩
    unfold pd_day at hdl
    by_cases hadm0 : (((drafts.filter (fun x => x.date == day)).insertionSort seqR).filter
        (fun x => isAdminDraft absorb_tag x)).isEmpty
    · rw [process_day_none day _ absorb_tag hadm0] at hdl
      have hmem : d ∈ ((drafts.filter (fun x => x.date == day)).insertionSort seqR).filter
          (fun x => isAdminDraft absorb_tag x) := List.mem_filter.mpr ⟨hdl, hadm⟩
      rw [List.isEmpty_iff] at hadm0
      rw [hadm0] at hmem
      exact absurd hmem (List.not_mem_nil d)
    · rw [process_day_some_shape day _ absorb_tag (by simpa using hadm0)] at hdl
      rcases List.mem_append.mp hdl with hw | ha
      · have := List.of_mem_filter hw
        simp [hadm] at this
      · have := List.of_mem_filter ha
        simpa using this
  · intro d hd hnadm
    rw [apply_absorption_eq]
    simp only
    rw [List.mem_insertionSort]
    apply List.mem_flatten.mpr
    refine ⟨(pd_day drafts absorb_tag d.date).1, List.mem_map_of_mem _ ?_, ?_⟩
    · rw [List.mem_insertionSort, uniqueFirst_mem]
      exact List.mem_map_of_mem _ hd
    · unfold pd_day
      have hddmem : d ∈ (drafts.filter (fun x => x.date == d.date)).insertionSort seqR := by
        rw [List.mem_insertionSort]
        exact List.mem_filter.mpr ⟨hd, by simp⟩
      by_cases hadm0 : (((drafts.filter (fun x => x.date == d.date)).insertionSort seqR).filter
          (fun x => isAdminDraft absorb_tag x)).isEmpty
      · rw [process_day_none d.date _ absorb_tag hadm0]
        exact hddmem
      · rw [process_day_some_shape d.date _ absorb_tag (by simpa using hadm0)]
        apply List.mem_append.mpr
        left
        exact List.mem_filter.mpr ⟨hddmem, by simp [hnadm]⟩
  · intro d h0
    unfold finalize_draft billable_minutes_from_raw_seconds round_seconds_to_15m_blocks _ceil_div
    rw [h0]
    norm_num

/-- Witness for C10: an absorb-tagged draft with zero raw seconds is
dropped while the zero-second work draft survives and finalizes to zero
minutes. -/
theorem apply_absorption_zero_boundary_witness :
    isAdminDraft "admin" workZeroDraft = false
    ∧ workZeroDraft ∈ (apply_absorption [adminZeroDraft, workZeroDraft] "admin").1
    ∧ (∀ d ∈ (apply_absorption [adminZeroDraft, workZeroDraft] "admin").1,
        isAdminDraft "admin" d = true → 0 < d.raw_seconds)
    ∧ workZeroDraft.raw_seconds = 0
    ∧ (finalize_draft workZeroDraft).duration_minutes = 0 :=
  ⟨by decide,
   (apply_absorption_zero_boundary [adminZeroDraft, workZeroDraft] "admin").2.1 workZeroDraft
     (by decide) (by decide),
   (apply_absorption_zero_boundary [adminZeroDraft, workZeroDraft] "admin").1,
   by decide,
   (apply_absorption_zero_boundary [adminZeroDraft, workZeroDraft] "admin").2.2 workZeroDraft
     (by decide)⟩
